import Mathlib

/-!
Shallow embedding of the collision-minimizing slot-assignment algorithm of
the AFL LLVM pass (llvm_mode/afl-llvm-pass.so copy.cc): the parametric hash
solver calcFmul, the fallback table builder calcFhash, the
single-predecessor table builder calcSingle, and the per-block effect of
AFLCoverage::runOnModule.  Basic blocks are identified by naturals; the C
unsigned int arithmetic is modelled on Nat with explicit reduction mod
2 ^ 32; the std::set and std::map globals become a Finset and total
functions into Option threaded through explicit states.
-/

namespace AFLPass

/-- Bitmap capacity MAP_SIZE as a function of the exponent MAP_SIZE_POW2. -/
def MAPSIZE (k : ℕ) : ℕ := 2 ^ k

/-- Modulus of the C unsigned int type used for keys and hashes. -/
def W32 : ℕ := 2 ^ 32

/-- Static input of the slot-assignment pipeline: the bitmap exponent
MAP_SIZE_POW2, the multi-predecessor and single-predecessor block lists,
the predecessor relation and the per-block random keys, mirroring the
globals multiBBS, singleBBS, preds and keys of the pass. -/
structure Env where
  k : ℕ
  multiBBS : List ℕ
  singleBBS : List ℕ
  preds : ℕ → List ℕ
  keys : ℕ → ℕ

/-- Edge hash computed at line 97 of the pass; by C operator precedence the
addition binds tighter than the xor, so the value is
(cur >> x) xor ((pre >> y) + z), in unsigned 32-bit arithmetic. -/
def edgeHash (cur pre x y z : ℕ) : ℕ :=
  ((cur % W32) >>> x) ^^^ ((((pre % W32) >>> y) + z) % W32)

/-- Set of candidate edge hashes of all incoming edges of a block, as
accumulated into the global tmpHashSet at lines 93 to 99. -/
def tmpHashSet (E : Env) (BB x y z : ℕ) : Finset ℕ :=
  ((E.preds BB).map (fun p => edgeHash (E.keys BB) (E.keys p) x y z)).toFinset

/-- The disjointness check of lines 67 to 74: no element of the first set
equals an element of the second. -/
def disjoint (a b : Finset ℕ) : Prop :=
  ∀ h ∈ a, ∀ h' ∈ b, h ≠ h'

instance (a b : Finset ℕ) : Decidable (disjoint a b) := by
  unfold disjoint; infer_instance

/-- Solver state: the round's claimed hash set, the params map, and the
solv and unsolv lists, mirroring the globals of the same names. -/
structure SolverState where
  hashes : Finset ℕ
  params : ℕ → Option (ℕ × ℕ × ℕ)
  solv : List ℕ
  unsolv : List ℕ

/-- State after hashes.clear(), params.clear(), solv.clear() and
unsolv.clear() at the start of a round (also the initial global state). -/
def initState : SolverState :=
  { hashes := ∅, params := fun _ => none, solv := [], unsolv := [] }

/-- Candidate pairs (x, z) enumerated by the two inner loops of lines 91
and 92, x ascending then z ascending, each over 1 .. MAP_SIZE_POW2 - 1. -/
def candPairs (k : ℕ) : List (ℕ × ℕ) :=
  (List.range' 1 (k - 1)).flatMap (fun x => (List.range' 1 (k - 1)).map (fun z => (x, z)))

/-- Body of the innermost z loop of calcFmul (lines 93 to 107): on a
collision-free and globally disjoint candidate, push the block on solv,
overwrite its params entry and merge its hashes into the claimed set;
there is no break, so the scan over later candidates continues. -/
def stepCand (E : Env) (y BB : ℕ) (st : SolverState) (xz : ℕ × ℕ) : SolverState :=
  let t := tmpHashSet E BB xz.1 y xz.2
  if t.card = (E.preds BB).length ∧ disjoint t st.hashes then
    { st with solv := st.solv ++ [BB],
              params := Function.update st.params BB (some (xz.1, y, xz.2)),
              hashes := st.hashes ∪ t }
  else st

/-- Processing of one block in a round: the whole (x, z) search, then the
unconditional push of the block on unsolv at line 110. -/
def processBlock (E : Env) (y : ℕ) (st : SolverState) (BB : ℕ) : SolverState :=
  let st' := (candPairs E.k).foldl (stepCand E y BB) st
  { st' with unsolv := st'.unsolv ++ [BB] }

/-- One round of calcFmul at outer shift y: the per-round state is cleared
at lines 85 to 88, then every multi-predecessor block is processed. -/
def calcFmulRound (E : Env) (y : ℕ) : SolverState :=
  E.multiBBS.foldl (processBlock E y) initState

/-- Break condition at lines 112 to 119; the double comparison
(double)u / (u + s) < 0.001 is modelled exactly over the rationals as
1000 * u < u + s, which also matches the code when u + s = 0: there the
NaN compare is false, as is 1000 * 0 < 0. -/
def breakCond (st : SolverState) : Prop :=
  st.unsolv.length < 10 ∨ 1000 * st.unsolv.length < st.unsolv.length + st.solv.length

instance (st : SolverState) : Decidable (breakCond st) := by
  unfold breakCond; infer_instance

/-- Outer y loop of calcFmul with explicit fuel, one unit per iteration of
the C for loop, which runs y upward from 1 while y < MAP_SIZE_POW2. -/
def sweepFrom (E : Env) : ℕ → ℕ → SolverState → SolverState
  | 0, _, st => st
  | fuel + 1, y, st =>
    if y < E.k then
      let st' := calcFmulRound E y
      if breakCond st' then st' else sweepFrom E fuel (y + 1) st'
    else st

/-- calcFmul of lines 77 to 123: the full y sweep from the empty global
state.  Fuel E.k suffices because the loop body runs at most E.k - 1
times. -/
def calcFmul (E : Env) : SolverState := sweepFrom E E.k 1 initState

/-- List of the y values whose rounds the sweep actually executes. -/
def traceFrom (E : Env) : ℕ → ℕ → List ℕ
  | 0, _ => []
  | fuel + 1, y =>
    if y < E.k then
      y :: (if breakCond (calcFmulRound E y) then [] else traceFrom E fuel (y + 1))
    else []

/-- The executed rounds of calcFmul's outer loop. -/
def sweepTrace (E : Env) : List ℕ := traceFrom E E.k 1

/-- State shared by the fallback and single-predecessor builders: the
occupied-slot set hashes together with the hashMap and singleMap tables. -/
structure TableState where
  hashes : Finset ℕ
  hashMap : ℕ × ℕ → Option ℕ
  singleMap : ℕ → Option ℕ

/-- First-fit scan of lines 134 and 153: the first index i below M outside
the occupied set, or none when every slot is taken. -/
def firstFree (M : ℕ) (H : Finset ℕ) : Option ℕ :=
  (List.range M).find? (fun i => decide (i ∉ H))

/-- Per-edge body of calcFhash (lines 131 to 143): assign the first free
slot to the key pair (cur, pre) and reserve it at once; when no slot is
free the edge is left without an entry and the loop falls through. -/
def fhashStep (M : ℕ) (ts : TableState) (cur pre : ℕ) : TableState :=
  match firstFree M ts.hashes with
  | some i =>
    { ts with hashMap := Function.update ts.hashMap (cur, pre) (some i),
              hashes := insert i ts.hashes }
  | none => ts

/-- calcFhash of lines 126 to 145: hashMap.clear(), then a first-fit slot
for every incoming edge of every block of unsolv, starting from the
occupied set left by the solver. -/
def calcFhash (E : Env) (S : SolverState) : TableState :=
  S.unsolv.foldl
    (fun ts BB =>
      (E.preds BB).foldl (fun t p => fhashStep (MAPSIZE E.k) t (E.keys BB) (E.keys p)) ts)
    { hashes := S.hashes, hashMap := fun _ => none, singleMap := fun _ => none }

/-- Per-block body of calcSingle (lines 152 to 161). -/
def singleStep (M : ℕ) (ts : TableState) (cur : ℕ) : TableState :=
  match firstFree M ts.hashes with
  | some i =>
    { ts with singleMap := Function.update ts.singleMap cur (some i),
              hashes := insert i ts.hashes }
  | none => ts

/-- calcSingle of lines 148 to 164: singleMap.clear(), then a first-fit
slot for the key of every single-predecessor block, on the same shared
occupied set. -/
def calcSingle (E : Env) (ts : TableState) : TableState :=
  E.singleBBS.foldl (fun t BB => singleStep (MAPSIZE E.k) t (E.keys BB))
    { ts with singleMap := fun _ => none }

/-- The three phases in the order a run executes them. -/
def pipeline (E : Env) : TableState := calcSingle E (calcFhash E (calcFmul E))

/-- Solver outputs reachable from runOnModule through the globals; the
function never reads them. -/
structure SolverOut where
  params : ℕ → Option (ℕ × ℕ × ℕ)
  hashMap : ℕ × ℕ → Option ℕ
  singleMap : ℕ → Option ℕ

/-- Per-block instrumentation choices of lines 235 to 278: one random draw
for the sampling test and, when instrumenting, one more fresh draw for
cur_loc; the result records the cur_loc constant compiled into each
instrumented block, or none for a skipped block. -/
def instrumentBlocks (M : ℕ) (rand : ℕ → ℕ) (pct : ℕ) : List Unit → ℕ → List (Option ℕ)
  | [], _ => []
  | _ :: bs, c =>
    if pct ≤ rand c % 100 then none :: instrumentBlocks M rand pct bs (c + 1)
    else some (rand (c + 1) % M) :: instrumentBlocks M rand pct bs (c + 2)

/-- runOnModule of lines 190 to 294 restricted to its per-block effect; the
solver outputs are in scope but unused, exactly as in the source. -/
def runOnModule (M : ℕ) (out : SolverOut) (blocks : List Unit) (rand : ℕ → ℕ)
    (pct : ℕ) : List (Option ℕ) :=
  instrumentBlocks M rand pct blocks 0

/-- Bitmap index compiled at lines 259 and 260: previous location xor the
block's cur_loc constant. -/
def emittedIndex (curLoc prevLoc : ℕ) : ℕ := (prevLoc % W32) ^^^ curLoc

/-- Update of the previous-location variable at lines 270 to 273. -/
def nextPrevLoc (curLoc : ℕ) : ℕ := curLoc >>> 1

/-- Runtime index trace of the emitted instrumentation along a path of
instrumented blocks. -/
def runTrace : ℕ → List ℕ → List ℕ
  | _, [] => []
  | prev, c :: cs => emittedIndex c prev :: runTrace (nextPrevLoc c) cs

/-- Example input: one multi-predecessor block 0 with predecessors 1 and 2,
one single-predecessor block 3, MAP_SIZE_POW2 = 3. -/
def exEnv : Env :=
  { k := 3,
    multiBBS := [0],
    singleBBS := [3],
    preds := fun b => if b = 0 then [1, 2] else [],
    keys := fun b => if b = 2 then 4 else if b = 3 then 7 else 0 }

/-- Exhaustion input for the single-predecessor builder: MAP_SIZE = 4 and
five single-predecessor blocks with pairwise distinct keys. -/
def exEnvX : Env :=
  { k := 2,
    multiBBS := [],
    singleBBS := [10, 11, 12, 13, 14],
    preds := fun _ => [],
    keys := fun b => b }

/-- Exhaustion input for the fallback builder: MAP_SIZE = 4 and one
unsolvable multi-predecessor block with five incoming edges. -/
def exEnvF : Env :=
  { k := 2,
    multiBBS := [0],
    singleBBS := [],
    preds := fun b => if b = 0 then [1, 2, 3, 4, 5] else [],
    keys := fun b => if b = 3 then 2 else if b = 4 then 4 else if b = 5 then 6 else 0 }

/-- Example table state with slots 0 and 1 occupied and empty tables. -/
def exTS : TableState :=
  { hashes := {0, 1}, hashMap := fun _ => none, singleMap := fun _ => none }

/-- Modelled from the amended description of the (x, z) search: one scan
step that records a qualifying candidate pair and merges its hashes into
the evolving claimed set, and otherwise changes nothing. -/
def acceptedStep (E : Env) (y BB : ℕ) (a : List (ℕ × ℕ) × Finset ℕ) (xz : ℕ × ℕ) :
    List (ℕ × ℕ) × Finset ℕ :=
  let t := tmpHashSet E BB xz.1 y xz.2
  if t.card = (E.preds BB).length ∧ disjoint t a.2 then (a.1 ++ [xz], a.2 ∪ t) else a

/-- Modelled from the amended description of the (x, z) search: all
accepted candidate pairs for one block in scan order, starting from a
given claimed set, together with the final claimed set. -/
def acceptedPairs (E : Env) (y BB : ℕ) (H : Finset ℕ) : List (ℕ × ℕ) × Finset ℕ :=
  (candPairs E.k).foldl (acceptedStep E y BB) ([], H)

/-- Modelled from the spec: the candidate edge-hash formula with the
grouping the spec writes, the sum applied to the shifted predecessor key
before the xor. -/
def specHash (kB kp x y z : ℕ) : ℕ :=
  ((kB % W32) >>> x) ^^^ ((((kp % W32) >>> y) + z) % W32)

/-- Invariant of the candidate search within one round: every params entry
records a candidate whose edge hashes are collision free, all claimed in
hashes, and disjoint from the recorded hashes of every other block. -/
def SolvedInv (E : Env) (st : SolverState) : Prop :=
  ∀ B x y z, st.params B = some (x, y, z) →
    (tmpHashSet E B x y z).card = (E.preds B).length ∧
    tmpHashSet E B x y z ⊆ st.hashes ∧
    ∀ B' x' y' z', st.params B' = some (x', y', z') → B ≠ B' →
      Disjoint (tmpHashSet E B x y z) (tmpHashSet E B' x' y' z')

/-- Invariant of the table-building phases relative to the occupied set H0
left by the solver: occupancy only grows, every table value is a reserved
slot outside H0, and table entries never share a value, within a table or
across the two tables. -/
def TableInv (H0 : Finset ℕ) (ts : TableState) : Prop :=
  H0 ⊆ ts.hashes ∧
  (∀ e v, ts.hashMap e = some v → v ∈ ts.hashes ∧ v ∉ H0) ∧
  (∀ c v, ts.singleMap c = some v → v ∈ ts.hashes ∧ v ∉ H0) ∧
  (∀ e e' v v', e ≠ e' → ts.hashMap e = some v → ts.hashMap e' = some v' → v ≠ v') ∧
  (∀ c c' v v', c ≠ c' → ts.singleMap c = some v → ts.singleMap c' = some v' → v ≠ v') ∧
  (∀ e c v v', ts.hashMap e = some v → ts.singleMap c = some v' → v ≠ v')

/-!  Theorems.  Generic fold helpers first, then per-claim developments. -/

/-- A property preserved by every step applied to a list element is
preserved by the whole left fold. -/
theorem foldl_preserve {α β : Type*} (P : α → Prop) (step : α → β → α) :
    ∀ (l : List β) (st : α), (∀ st' b, b ∈ l → P st' → P (step st' b)) →
      P st → P (l.foldl step st) := by
  intro l
  induction l with
  | nil => intro st _ h; simpa using h
  | cons b bs ih =>
    intro st hstep h
    simp only [List.foldl_cons]
    exact ih _ (fun st' b' hb' => hstep st' b' (List.mem_cons_of_mem _ hb'))
      (hstep st b (List.mem_cons_self _ _) h)

/-- The inner candidate scan never touches unsolv. -/
theorem stepCand_unsolv (E : Env) (y BB : ℕ) (st : SolverState) (xz : ℕ × ℕ) :
    (stepCand E y BB st xz).unsolv = st.unsolv := by
  simp only [stepCand]
  split <;> rfl

/-- The whole candidate fold never touches unsolv. -/
theorem foldCand_unsolv (E : Env) (y BB : ℕ) (l : List (ℕ × ℕ)) (st : SolverState) :
    (l.foldl (stepCand E y BB) st).unsolv = st.unsolv :=
  foldl_preserve (fun s => s.unsolv = st.unsolv) _ l st
    (fun st' xz _ h => by show (stepCand E y BB st' xz).unsolv = st.unsolv
                          rw [stepCand_unsolv]; exact h) rfl

/-- Processing a block appends exactly that block to unsolv. -/
theorem processBlock_unsolv (E : Env) (y : ℕ) (st : SolverState) (BB : ℕ) :
    (processBlock E y st BB).unsolv = st.unsolv ++ [BB] := by
  simp only [processBlock, foldCand_unsolv]

/-- A round's block fold appends the processed blocks to unsolv in order. -/
theorem foldBlocks_unsolv (E : Env) (y : ℕ) :
    ∀ (l : List ℕ) (st : SolverState),
      (l.foldl (processBlock E y) st).unsolv = st.unsolv ++ l := by
  intro l
  induction l with
  | nil => intro st; simp
  | cons B bs ih => intro st; simp [List.foldl_cons, ih, processBlock_unsolv]

/-- Any block pushed on solv during a block's candidate scan is that
block or was already there. -/
theorem foldCand_solv_mem (E : Env) (y BB : ℕ) (l : List (ℕ × ℕ)) (st : SolverState) :
    ∀ B ∈ (l.foldl (stepCand E y BB) st).solv, B ∈ st.solv ∨ B = BB := by
  refine foldl_preserve (fun s => ∀ B ∈ s.solv, B ∈ st.solv ∨ B = BB) _ l st
    (fun st' xz _ h B hB => ?_) (fun B hB => Or.inl hB)
  revert hB
  simp only [stepCand]
  split
  · intro hB
    rcases List.mem_append.mp hB with h1 | h2
    · exact h B h1
    · exact Or.inr (List.mem_singleton.mp h2)
  · exact h B

/-- C4: every multi-predecessor block is unconditionally appended to the
unsolved list after its candidate search, so at the end of every round
unsolv is exactly the multiBBS list, and every block recorded in solv,
solved or not, also appears in unsolv for the fallback phase to consume. -/
theorem round_unsolv_complete (E : Env) (y : ℕ) :
    (calcFmulRound E y).unsolv = E.multiBBS ∧
      ∀ B ∈ (calcFmulRound E y).solv, B ∈ (calcFmulRound E y).unsolv := by
  have hu : (calcFmulRound E y).unsolv = E.multiBBS := by
    simpa [initState] using foldBlocks_unsolv E y E.multiBBS initState
  refine ⟨hu, ?_⟩
  have := foldl_preserve (fun s : SolverState => ∀ B ∈ s.solv, B ∈ s.unsolv)
    (processBlock E y) E.multiBBS initState
    (fun st' BB _ h B hB => ?_) (fun B hB => by simp [initState] at hB)
  · exact this
  · have hsolv : (processBlock E y st' BB).solv =
        ((candPairs E.k).foldl (stepCand E y BB) st').solv := rfl
    rw [hsolv] at hB
    rcases foldCand_solv_mem E y BB (candPairs E.k) st' B hB with h1 | h2
    · rw [processBlock_unsolv]
      exact List.mem_append.mpr (Or.inl (h B h1))
    · rw [processBlock_unsolv, h2]
      exact List.mem_append.mpr (Or.inr (List.mem_singleton.mpr rfl))

/-- Witness for round_unsolv_complete at the example input: block 0 is
recorded as solved in round 1 and indeed also appears in unsolv. -/
theorem round_unsolv_complete_witness :
    (0 ∈ (calcFmulRound exEnv 1).solv) ∧ 0 ∈ (calcFmulRound exEnv 1).unsolv :=
  ⟨by decide, (round_unsolv_complete exEnv 1).2 0 (by decide)⟩

/-- The source's element-by-element disjointness test agrees with set
disjointness. -/
theorem disjoint_iff_Disjoint (a b : Finset ℕ) : disjoint a b ↔ Disjoint a b := by
  rw [Finset.disjoint_left]
  constructor
  · intro h x hx hxb
    exact h x hx x hxb rfl
  · intro h x hx x' hx' he
    exact h hx (he ▸ hx')

/-- One candidate step preserves the solved-entry invariant. -/
theorem stepCand_inv (E : Env) (y BB : ℕ) (st : SolverState) (xz : ℕ × ℕ)
    (h : SolvedInv E st) : SolvedInv E (stepCand E y BB st xz) := by
  simp only [stepCand]
  split
  case isTrue hc =>
    obtain ⟨hcard, hdisj⟩ := hc
    have hdisj' : Disjoint (tmpHashSet E BB xz.1 y xz.2) st.hashes :=
      (disjoint_iff_Disjoint _ _).mp hdisj
    intro B x yy z hB
    dsimp only at hB ⊢
    by_cases hBB : B = BB
    · subst hBB
      rw [Function.update_same] at hB
      obtain ⟨hx, hy, hz⟩ : xz.1 = x ∧ y = yy ∧ xz.2 = z := by
        injection hB with hB'
        exact ⟨congrArg Prod.fst hB', congrArg Prod.fst (congrArg Prod.snd hB'),
          congrArg Prod.snd (congrArg Prod.snd hB')⟩
      subst hx; subst hy; subst hz
      refine ⟨hcard, Finset.subset_union_right, ?_⟩
      intro B' x' y' z' hB' hne
      rw [Function.update_noteq (fun he => hne he.symm)] at hB'
      exact Finset.disjoint_of_subset_right (h B' x' y' z' hB').2.1 hdisj'
    · rw [Function.update_noteq hBB] at hB
      obtain ⟨h1, h2, h3⟩ := h B x yy z hB
      refine ⟨h1, h2.trans Finset.subset_union_left, ?_⟩
      intro B' x' y' z' hB' hne
      by_cases hBB' : B' = BB
      · subst hBB'
        rw [Function.update_same] at hB'
        obtain ⟨hx, hy, hz⟩ : xz.1 = x' ∧ y = y' ∧ xz.2 = z' := by
          injection hB' with hB''
          exact ⟨congrArg Prod.fst hB'', congrArg Prod.fst (congrArg Prod.snd hB''),
            congrArg Prod.snd (congrArg Prod.snd hB'')⟩
        subst hx; subst hy; subst hz
        exact (Finset.disjoint_of_subset_right h2 hdisj').symm
      · rw [Function.update_noteq hBB'] at hB'
        exact h3 B' x' y' z' hB' hne
  case isFalse => exact h

/-- The whole candidate fold preserves the solved-entry invariant. -/
theorem foldCand_inv (E : Env) (y BB : ℕ) (l : List (ℕ × ℕ)) (st : SolverState)
    (h : SolvedInv E st) : SolvedInv E (l.foldl (stepCand E y BB) st) :=
  foldl_preserve (SolvedInv E) _ l st (fun st' xz _ h' => stepCand_inv E y BB st' xz h') h

/-- Processing one block preserves the solved-entry invariant. -/
theorem processBlock_inv (E : Env) (y : ℕ) (st : SolverState) (BB : ℕ)
    (h : SolvedInv E st) : SolvedInv E (processBlock E y st BB) :=
  foldCand_inv E y BB (candPairs E.k) st h

/-- The solved-entry invariant holds at the end of every round. -/
theorem round_inv (E : Env) (y : ℕ) : SolvedInv E (calcFmulRound E y) :=
  foldl_preserve (SolvedInv E) (processBlock E y) E.multiBBS initState
    (fun st' BB _ h => processBlock_inv E y st' BB h)
    (fun B x yy z hB => by simp [initState] at hB)

/-- The sweep either returns its argument untouched or the result of one
executed round with an in-range shift value. -/
theorem sweepFrom_cases (E : Env) :
    ∀ (fuel y : ℕ) (st : SolverState),
      sweepFrom E fuel y st = st ∨
        ∃ y', y ≤ y' ∧ y' < E.k ∧ sweepFrom E fuel y st = calcFmulRound E y' := by
  intro fuel
  induction fuel with
  | zero => intro y st; exact Or.inl rfl
  | succ f ih =>
    intro y st
    simp only [sweepFrom]
    split
    case isTrue hy =>
      split
      case isTrue hb => exact Or.inr ⟨y, le_refl y, hy, rfl⟩
      case isFalse hb =>
        rcases ih (y + 1) (calcFmulRound E y) with h | ⟨y', h1, h2, h3⟩
        · exact Or.inr ⟨y, le_refl y, hy, h⟩
        · exact Or.inr ⟨y', by omega, h2, h3⟩
    case isFalse hy => exact Or.inl rfl

/-- The solved-entry invariant holds for the final state of calcFmul. -/
theorem calcFmul_inv (E : Env) : SolvedInv E (calcFmul E) := by
  rcases sweepFrom_cases E E.k 1 initState with h | ⟨y', _, _, h⟩
  · rw [calcFmul, h]
    intro B x yy z hB
    simp [initState] at hB
  · rw [calcFmul, h]
    exact round_inv E y'

/-- A list whose associated finite set is as large as the list has no
duplicate entries. -/
theorem nodup_of_card_toFinset {l : List ℕ} (h : l.toFinset.card = l.length) :
    l.Nodup := by
  rw [List.card_toFinset] at h
  exact List.dedup_eq_self.mp (List.Sublist.eq_of_length (List.dedup_sublist l) h)

/-- C5: every block recorded as solved by calcFmul carries final HashParams
under which the edge-hash values over its predecessor list are pairwise
distinct, hence exactly as many values as the block has predecessors. -/
theorem calcFmul_solved_nodup (E : Env) (B x y z : ℕ)
    (h : (calcFmul E).params B = some (x, y, z)) :
    ((E.preds B).map (fun p => edgeHash (E.keys B) (E.keys p) x y z)).Nodup := by
  have h1 := (calcFmul_inv E B x y z h).1
  refine nodup_of_card_toFinset ?_
  rw [List.length_map]
  simpa [tmpHashSet] using h1

/-- Witness for calcFmul_solved_nodup: in the example run block 0 is solved
with HashParams (1, 1, 2) and its two edge hashes are distinct. -/
theorem calcFmul_solved_nodup_witness :
    ((calcFmul exEnv).params 0 = some (1, 1, 2)) ∧
      ((exEnv.preds 0).map
        (fun p => edgeHash (exEnv.keys 0) (exEnv.keys p) 1 1 2)).Nodup :=
  ⟨by decide, calcFmul_solved_nodup exEnv 0 1 1 2 (by decide)⟩

/-- A successful find? over a contiguous range returns the first index
satisfying the test: all earlier indices of the range fail it. -/
theorem find?_range'_eq_some {p : ℕ → Bool} :
    ∀ (n s i : ℕ), (List.range' s n).find? p = some i →
      p i = true ∧ s ≤ i ∧ i < s + n ∧ ∀ j, s ≤ j → j < i → p j = false := by
  intro n
  induction n with
  | zero => intro s i h; simp [List.range'] at h
  | succ m ih =>
    intro s i h
    rw [List.range'_succ] at h
    cases hps : p s
    · rw [List.find?_cons_of_neg _ (by simp [hps])] at h
      obtain ⟨h1, h2, h3, h4⟩ := ih (s + 1) i h
      refine ⟨h1, by omega, by omega, ?_⟩
      intro j hj1 hj2
      rcases Nat.eq_or_lt_of_le hj1 with he | hl
      · rw [← he]; exact hps
      · exact h4 j hl hj2
    · rw [List.find?_cons_of_pos _ hps] at h
      injection h with h'
      subst h'
      exact ⟨hps, le_refl s, by omega, fun j hj1 hj2 => by omega⟩

/-- A successful first-fit scan returns an in-range free slot below which
every slot is occupied. -/
theorem firstFree_spec (M : ℕ) (H : Finset ℕ) (i : ℕ) (h : firstFree M H = some i) :
    i < M ∧ i ∉ H ∧ ∀ j < i, j ∈ H := by
  rw [firstFree, List.range_eq_range'] at h
  obtain ⟨h1, h2, h3, h4⟩ := find?_range'_eq_some M 0 i h
  refine ⟨by omega, by simpa using h1, ?_⟩
  intro j hj
  have h5 := h4 j (Nat.zero_le j) hj
  have h6 : ¬j ∉ H := by simpa using h5
  exact not_not.mp h6

/-- A failed first-fit scan means every slot below M is occupied. -/
theorem firstFree_none (M : ℕ) (H : Finset ℕ) (h : firstFree M H = none) :
    ∀ j < M, j ∈ H := by
  rw [firstFree] at h
  intro j hj
  have h5 := List.find?_eq_none.mp h j (List.mem_range.mpr hj)
  have h6 : ¬j ∉ H := by simpa using h5
  exact not_not.mp h6

/-- When a free slot exists the first-fit scan succeeds. -/
theorem firstFree_isSome (M : ℕ) (H : Finset ℕ) (hfree : ∃ i, i < M ∧ i ∉ H) :
    ∃ i, firstFree M H = some i := by
  cases hf : firstFree M H with
  | none =>
    obtain ⟨i, h1, h2⟩ := hfree
    exact absurd (firstFree_none M H hf i h1) h2
  | some i => exact ⟨i, rfl⟩

/-- C7: whenever a free slot exists, the per-edge step of calcFhash and the
per-block step of calcSingle both assign the minimal index below M outside
the shared occupied set and both reserve it immediately by inserting it
into that same shared set. -/
theorem firstFit_step_spec (M : ℕ) (ts : TableState) (cur pre c : ℕ)
    (hfree : ∃ i, i < M ∧ i ∉ ts.hashes) :
    ∃ i, (i < M ∧ i ∉ ts.hashes ∧ ∀ j < i, j ∈ ts.hashes) ∧
      fhashStep M ts cur pre =
        { ts with hashMap := Function.update ts.hashMap (cur, pre) (some i),
                  hashes := insert i ts.hashes } ∧
      singleStep M ts c =
        { ts with singleMap := Function.update ts.singleMap c (some i),
                  hashes := insert i ts.hashes } := by
  obtain ⟨i, hf⟩ := firstFree_isSome M ts.hashes hfree
  obtain ⟨h1, h2, h3⟩ := firstFree_spec M ts.hashes i hf
  refine ⟨i, ⟨h1, h2, h3⟩, ?_, ?_⟩
  · rw [fhashStep, hf]
  · rw [singleStep, hf]

/-- Witness for firstFit_step_spec: with slots 0 and 1 occupied out of 4,
both builders assign slot 2 to their next entry and reserve it. -/
theorem firstFit_step_spec_witness :
    (∃ i, i < 4 ∧ i ∉ exTS.hashes) ∧
      ∃ i, (i < 4 ∧ i ∉ exTS.hashes ∧ ∀ j < i, j ∈ exTS.hashes) ∧
        fhashStep 4 exTS 5 6 =
          { exTS with hashMap := Function.update exTS.hashMap (5, 6) (some i),
                      hashes := insert i exTS.hashes } ∧
        singleStep 4 exTS 7 =
          { exTS with singleMap := Function.update exTS.singleMap 7 (some i),
                      hashes := insert i exTS.hashes } :=
  ⟨⟨2, by decide, by decide⟩, firstFit_step_spec 4 exTS 5 6 7 ⟨2, by decide, by decide⟩⟩

/-- Reduction of the fallback step on a successful scan. -/
theorem fhashStep_some (M : ℕ) (ts : TableState) (cur pre i : ℕ)
    (hf : firstFree M ts.hashes = some i) :
    fhashStep M ts cur pre =
      { ts with hashMap := Function.update ts.hashMap (cur, pre) (some i),
                hashes := insert i ts.hashes } := by
  rw [fhashStep, hf]

/-- Reduction of the fallback step on an exhausted scan. -/
theorem fhashStep_none (M : ℕ) (ts : TableState) (cur pre : ℕ)
    (hf : firstFree M ts.hashes = none) : fhashStep M ts cur pre = ts := by
  rw [fhashStep, hf]

/-- Reduction of the single-predecessor step on a successful scan. -/
theorem singleStep_some (M : ℕ) (ts : TableState) (cur i : ℕ)
    (hf : firstFree M ts.hashes = some i) :
    singleStep M ts cur =
      { ts with singleMap := Function.update ts.singleMap cur (some i),
                hashes := insert i ts.hashes } := by
  rw [singleStep, hf]

/-- Reduction of the single-predecessor step on an exhausted scan. -/
theorem singleStep_none (M : ℕ) (ts : TableState) (cur : ℕ)
    (hf : firstFree M ts.hashes = none) : singleStep M ts cur = ts := by
  rw [singleStep, hf]

/-- One fallback-table step preserves the table invariant. -/
theorem fhashStep_tinv (M : ℕ) (H0 : Finset ℕ) (ts : TableState) (cur pre : ℕ)
    (h : TableInv H0 ts) : TableInv H0 (fhashStep M ts cur pre) := by
  obtain ⟨g1, g2, g3, g4, g5, g6⟩ := h
  cases hf : firstFree M ts.hashes with
  | none => rw [fhashStep_none M ts cur pre hf]; exact ⟨g1, g2, g3, g4, g5, g6⟩
  | some i =>
    obtain ⟨hi1, hi2, hi3⟩ := firstFree_spec M ts.hashes i hf
    rw [fhashStep_some M ts cur pre i hf]
    refine ⟨g1.trans (Finset.subset_insert i ts.hashes), ?_, ?_, ?_, ?_, ?_⟩
    · intro e v hv
      dsimp only at hv
      by_cases he : e = (cur, pre)
      · subst he
        rw [Function.update_same] at hv
        injection hv with hv'
        subst hv'
        exact ⟨Finset.mem_insert_self i ts.hashes, fun h0 => hi2 (g1 h0)⟩
      · rw [Function.update_noteq he] at hv
        obtain ⟨hv1, hv2⟩ := g2 e v hv
        exact ⟨Finset.mem_insert_of_mem hv1, hv2⟩
    · intro c v hv
      obtain ⟨hv1, hv2⟩ := g3 c v hv
      exact ⟨Finset.mem_insert_of_mem hv1, hv2⟩
    · intro e e' v v' hne hv hv'
      dsimp only at hv hv'
      by_cases he : e = (cur, pre) <;> by_cases he' : e' = (cur, pre)
      · exact absurd (he.trans he'.symm) hne
      · subst he
        rw [Function.update_same] at hv
        rw [Function.update_noteq he'] at hv'
        injection hv with hv0
        subst hv0
        exact fun heq => hi2 (heq ▸ (g2 e' v' hv').1)
      · subst he'
        rw [Function.update_same] at hv'
        rw [Function.update_noteq he] at hv
        injection hv' with hv0
        subst hv0
        exact fun heq => hi2 (heq ▸ (g2 e v hv).1)
      · rw [Function.update_noteq he] at hv
        rw [Function.update_noteq he'] at hv'
        exact g4 e e' v v' hne hv hv'
    · exact g5
    · intro e c v v' hv hv'
      dsimp only at hv hv'
      by_cases he : e = (cur, pre)
      · subst he
        rw [Function.update_same] at hv
        injection hv with hv0
        subst hv0
        exact fun heq => hi2 (heq ▸ (g3 c v' hv').1)
      · rw [Function.update_noteq he] at hv
        exact g6 e c v v' hv hv'

/-- One single-predecessor step preserves the table invariant. -/
theorem singleStep_tinv (M : ℕ) (H0 : Finset ℕ) (ts : TableState) (cur : ℕ)
    (h : TableInv H0 ts) : TableInv H0 (singleStep M ts cur) := by
  obtain ⟨g1, g2, g3, g4, g5, g6⟩ := h
  cases hf : firstFree M ts.hashes with
  | none => rw [singleStep_none M ts cur hf]; exact ⟨g1, g2, g3, g4, g5, g6⟩
  | some i =>
    obtain ⟨hi1, hi2, hi3⟩ := firstFree_spec M ts.hashes i hf
    rw [singleStep_some M ts cur i hf]
    refine ⟨g1.trans (Finset.subset_insert i ts.hashes), ?_, ?_, ?_, ?_, ?_⟩
    · intro e v hv
      obtain ⟨hv1, hv2⟩ := g2 e v hv
      exact ⟨Finset.mem_insert_of_mem hv1, hv2⟩
    · intro c v hv
      dsimp only at hv
      by_cases hc : c = cur
      · subst hc
        rw [Function.update_same] at hv
        injection hv with hv'
        subst hv'
        exact ⟨Finset.mem_insert_self i ts.hashes, fun h0 => hi2 (g1 h0)⟩
      · rw [Function.update_noteq hc] at hv
        obtain ⟨hv1, hv2⟩ := g3 c v hv
        exact ⟨Finset.mem_insert_of_mem hv1, hv2⟩
    · exact g4
    · intro c c' v v' hne hv hv'
      dsimp only at hv hv'
      by_cases hc : c = cur <;> by_cases hc' : c' = cur
      · exact absurd (hc.trans hc'.symm) hne
      · subst hc
        rw [Function.update_same] at hv
        rw [Function.update_noteq hc'] at hv'
        injection hv with hv0
        subst hv0
        exact fun heq => hi2 (heq ▸ (g3 c' v' hv').1)
      · subst hc'
        rw [Function.update_same] at hv'
        rw [Function.update_noteq hc] at hv
        injection hv' with hv0
        subst hv0
        exact fun heq => hi2 (heq ▸ (g3 c v hv).1)
      · rw [Function.update_noteq hc] at hv
        rw [Function.update_noteq hc'] at hv'
        exact g5 c c' v v' hne hv hv'
    · intro e c v v' hv hv'
      dsimp only at hv'
      by_cases hc : c = cur
      · subst hc
        rw [Function.update_same] at hv'
        injection hv' with hv0
        subst hv0
        exact fun heq => hi2 (heq ▸ (g2 e v hv).1)
      · rw [Function.update_noteq hc] at hv'
        exact g6 e c v v' hv hv'

/-- The fallback builder establishes the table invariant relative to the
occupied set the solver leaves behind. -/
theorem calcFhash_tinv (E : Env) (S : SolverState) :
    TableInv S.hashes (calcFhash E S) := by
  unfold calcFhash
  refine foldl_preserve (TableInv S.hashes) _ S.unsolv _ (fun ts BB _ h => ?_) ?_
  · exact foldl_preserve (TableInv S.hashes) _ (E.preds BB) ts
      (fun ts' p _ h' => fhashStep_tinv _ _ _ _ _ h') h
  · refine ⟨Finset.Subset.refl _, ?_, ?_, ?_, ?_, ?_⟩
    · intro e v hv; simp at hv
    · intro c v hv; simp at hv
    · intro e e' v v' _ hv _; simp at hv
    · intro c c' v v' _ hv _; simp at hv
    · intro e c v v' hv _; simp at hv

/-- The single-predecessor builder preserves the table invariant; its
initial singleMap.clear() preserves it trivially. -/
theorem calcSingle_tinv (E : Env) (H0 : Finset ℕ) (ts : TableState)
    (h : TableInv H0 ts) : TableInv H0 (calcSingle E ts) := by
  obtain ⟨g1, g2, g3, g4, g5, g6⟩ := h
  unfold calcSingle
  refine foldl_preserve (TableInv H0) _ E.singleBBS _
    (fun ts' BB _ h' => singleStep_tinv _ _ _ _ h') ?_
  refine ⟨g1, g2, ?_, g4, ?_, ?_⟩
  · intro c v hv; simp at hv
  · intro c c' v v' _ hv _; simp at hv
  · intro e c v v' _ hv; simp at hv

/-- The table invariant holds of the full pipeline's final state. -/
theorem pipeline_tinv (E : Env) : TableInv (calcFmul E).hashes (pipeline E) :=
  calcSingle_tinv E _ _ (calcFhash_tinv E (calcFmul E))

/-- Each predecessor's edge hash belongs to the block's candidate set. -/
theorem edgeHash_mem_tmpHashSet (E : Env) (B x y z p : ℕ) (hp : p ∈ E.preds B) :
    edgeHash (E.keys B) (E.keys p) x y z ∈ tmpHashSet E B x y z := by
  rw [tmpHashSet, List.mem_toFinset, List.mem_map]
  exact ⟨p, hp, rfl⟩

/-- C2: across the whole run, the final-HashParams edge hashes of solved
blocks, the values of hashMap and the values of singleMap are pairwise
distinct, within each collection and across the three collections. -/
theorem pipeline_slot_uniqueness (E : Env) :
    (∀ B x y z, (calcFmul E).params B = some (x, y, z) →
      ((E.preds B).map (fun p => edgeHash (E.keys B) (E.keys p) x y z)).Nodup) ∧
    (∀ B x y z B' x' y' z', B ≠ B' →
      (calcFmul E).params B = some (x, y, z) →
      (calcFmul E).params B' = some (x', y', z') →
      ∀ p ∈ E.preds B, ∀ p' ∈ E.preds B',
        edgeHash (E.keys B) (E.keys p) x y z ≠
          edgeHash (E.keys B') (E.keys p') x' y' z') ∧
    (∀ e e' v v', e ≠ e' → (pipeline E).hashMap e = some v →
      (pipeline E).hashMap e' = some v' → v ≠ v') ∧
    (∀ c c' v v', c ≠ c' → (pipeline E).singleMap c = some v →
      (pipeline E).singleMap c' = some v' → v ≠ v') ∧
    (∀ e c v v', (pipeline E).hashMap e = some v →
      (pipeline E).singleMap c = some v' → v ≠ v') ∧
    (∀ B x y z, (calcFmul E).params B = some (x, y, z) → ∀ p ∈ E.preds B,
      ∀ e v, (pipeline E).hashMap e = some v →
        edgeHash (E.keys B) (E.keys p) x y z ≠ v) ∧
    (∀ B x y z, (calcFmul E).params B = some (x, y, z) → ∀ p ∈ E.preds B,
      ∀ c v, (pipeline E).singleMap c = some v →
        edgeHash (E.keys B) (E.keys p) x y z ≠ v) := by
  have hsolver := calcFmul_inv E
  obtain ⟨g1, g2, g3, g4, g5, g6⟩ := pipeline_tinv E
  refine ⟨?_, ?_, g4, g5, g6, ?_, ?_⟩
  · intro B x y z hB
    refine nodup_of_card_toFinset ?_
    rw [List.length_map]
    simpa [tmpHashSet] using (hsolver B x y z hB).1
  · intro B x y z B' x' y' z' hne hB hB' p hp p' hp'
    have hd := (hsolver B x y z hB).2.2 B' x' y' z' hB' hne
    intro heq
    exact Finset.disjoint_left.mp hd (edgeHash_mem_tmpHashSet E B x y z p hp)
      (heq ▸ edgeHash_mem_tmpHashSet E B' x' y' z' p' hp')
  · intro B x y z hB p hp e v hv
    have hmem := (hsolver B x y z hB).2.1 (edgeHash_mem_tmpHashSet E B x y z p hp)
    have hv2 := (g2 e v hv).2
    exact fun heq => hv2 (heq ▸ hmem)
  · intro B x y z hB p hp c v hv
    have hmem := (hsolver B x y z hB).2.1 (edgeHash_mem_tmpHashSet E B x y z p hp)
    have hv2 := (g3 c v hv).2
    exact fun heq => hv2 (heq ▸ hmem)

/-- Witness for pipeline_slot_uniqueness at the example run: block 0 is
solved with HashParams (1, 1, 2), the fallback table maps the key pair
(0, 0) to slot 0, and the solved edge hash of predecessor 1 differs from
that slot value. -/
theorem pipeline_slot_uniqueness_witness :
    ((calcFmul exEnv).params 0 = some (1, 1, 2) ∧ 1 ∈ exEnv.preds 0 ∧
        (pipeline exEnv).hashMap (0, 0) = some 0) ∧
      edgeHash (exEnv.keys 0) (exEnv.keys 1) 1 1 2 ≠ 0 :=
  ⟨⟨by decide, by decide, by decide⟩,
    (pipeline_slot_uniqueness exEnv).2.2.2.2.2.1 0 1 1 2 (by decide) 1 (by decide)
      (0, 0) 0 (by decide)⟩

/-- Code behaviour at slot exhaustion: with MAP_SIZE = 4 and five
single-predecessor blocks, the fifth block's key gets no singleMap entry
while all four slots are occupied, and likewise the fifth incoming edge of
an unsolved block gets no hashMap entry; the run continues without any
error instead of aborting the compile. -/
theorem slot_exhaustion_silent_skip :
    ((pipeline exEnvX).singleMap 14 = none ∧
        ∀ i < 4, i ∈ (pipeline exEnvX).hashes) ∧
      ((pipeline exEnvF).hashMap (0, 6) = none ∧
        ∀ i < 4, i ∈ (pipeline exEnvF).hashes) := by
  decide

/-- C6: the edge hash the code computes applies the addition of z to the
shifted predecessor key before the xor, exactly as the spec's formula
groups it, for all keys and parameters; grouping the addition after the
xor instead would already disagree at key 2 with x = y = z = 1. -/
theorem edgeHash_grouping :
    (∀ cur pre x y z, edgeHash cur pre x y z = specHash cur pre x y z) ∧
      edgeHash 2 0 1 1 1 ≠ ((((2 % W32) >>> 1) ^^^ ((0 % W32) >>> 1)) + 1) % W32 :=
  ⟨fun _ _ _ _ _ => rfl, by decide⟩

/-- C10: the per-block effect of runOnModule is identical for any two
solver outputs, since it never invokes the solver phases and never reads
params, hashMap or singleMap; each instrumented block receives a fresh
random cur_loc below MAP_SIZE, and the emitted code indexes the bitmap
with the previous location xor that cur_loc. -/
theorem runOnModule_ignores_solver :
    (∀ (M : ℕ) (o1 o2 : SolverOut) (bs : List Unit) (rand : ℕ → ℕ) (pct : ℕ),
      runOnModule M o1 bs rand pct = runOnModule M o2 bs rand pct) ∧
    (∀ (M : ℕ) (rand : ℕ → ℕ) (pct c : ℕ) (b : Unit) (bs : List Unit),
      instrumentBlocks M rand pct (b :: bs) c =
        if pct ≤ rand c % 100 then none :: instrumentBlocks M rand pct bs (c + 1)
        else some (rand (c + 1) % M) :: instrumentBlocks M rand pct bs (c + 2)) ∧
    (∀ (prev c : ℕ) (cs : List ℕ), runTrace prev (c :: cs) =
      ((prev % W32) ^^^ c) :: runTrace (c >>> 1) cs) :=
  ⟨fun _ _ _ _ _ _ => rfl, fun _ _ _ _ _ _ => rfl, fun _ _ _ => rfl⟩

/-- Candidate pairs range over 1 .. MAP_SIZE_POW2 - 1 in both components. -/
theorem mem_candPairs {k : ℕ} {p : ℕ × ℕ} (h : p ∈ candPairs k) :
    1 ≤ p.1 ∧ p.1 < k ∧ 1 ≤ p.2 ∧ p.2 < k := by
  rw [candPairs] at h
  simp only [List.mem_flatMap, List.mem_map, List.mem_range'_1] at h
  obtain ⟨x, ⟨hx1, hx2⟩, z, ⟨hz1, hz2⟩, heq⟩ := h
  rw [← heq]
  constructor
  · exact hx1
  constructor
  · simpa using by omega
  constructor
  · exact hz1
  · simpa using by omega

/-- Bound on an edge hash: with both keys below the bitmap capacity, a
positive predecessor shift and a z increment below MAP_SIZE_POW2, the
hash stays below the bitmap capacity. -/
theorem edgeHash_lt (k cur pre x y z : ℕ) (hk : k ≤ 32) (hc : cur < 2 ^ k)
    (hp : pre < 2 ^ k) (hy : 1 ≤ y) (hz : z < k) :
    edgeHash cur pre x y z < 2 ^ k := by
  have hW : (2 : ℕ) ^ k ≤ W32 := by
    unfold W32
    exact Nat.pow_le_pow_right (by norm_num) hk
  have hcW : cur % W32 = cur := Nat.mod_eq_of_lt (lt_of_lt_of_le hc hW)
  have hpW : pre % W32 = pre := Nat.mod_eq_of_lt (lt_of_lt_of_le hp hW)
  have h2 : 2 ^ k = 2 * 2 ^ (k - 1) := by
    conv_lhs => rw [show k = (k - 1) + 1 by omega]
    rw [pow_succ]
    ring
  have hA : 1 ≤ 2 ^ (k - 1) := Nat.one_le_two_pow
  have h21 : (2 : ℕ) ≤ 2 ^ y := by
    calc (2 : ℕ) = 2 ^ 1 := (pow_one 2).symm
    _ ≤ 2 ^ y := Nat.pow_le_pow_right (by norm_num) hy
  have hsr : pre >>> y ≤ pre / 2 := by
    rw [Nat.shiftRight_eq_div_pow]
    calc pre / 2 ^ y ≤ pre / 2 := Nat.div_le_div_left h21 (by norm_num)
    _ ≤ pre / 2 := le_refl _
  have hk1 : k - 1 < 2 ^ (k - 1) := Nat.lt_two_pow (k - 1)
  have hsum : (pre % W32) >>> y + z < 2 ^ k := by
    rw [hpW]
    omega
  have hmod : ((pre % W32) >>> y + z) % W32 = (pre % W32) >>> y + z :=
    Nat.mod_eq_of_lt (lt_of_lt_of_le hsum hW)
  rw [edgeHash, hcW, hmod, hpW]
  refine Nat.xor_lt_two_pow ?_ ?_
  · rw [Nat.shiftRight_eq_div_pow]
    exact lt_of_le_of_lt (Nat.div_le_self cur (2 ^ x)) hc
  · rw [hpW] at hsum
    exact hsum

/-- All hashes claimed during a round with positive shift stay below the
bitmap capacity when every key does. -/
theorem round_hashes_lt (E : Env) (y : ℕ) (hk : E.k ≤ 32)
    (hkeys : ∀ b, E.keys b < 2 ^ E.k) (hy : 1 ≤ y) :
    ∀ h ∈ (calcFmulRound E y).hashes, h < 2 ^ E.k := by
  unfold calcFmulRound
  refine foldl_preserve (fun st : SolverState => ∀ h ∈ st.hashes, h < 2 ^ E.k) _
    E.multiBBS initState (fun st BB _ hIH => ?_) (fun h hh => by simp [initState] at hh)
  show ∀ h ∈ ((candPairs E.k).foldl (stepCand E y BB) st).hashes, h < 2 ^ E.k
  refine foldl_preserve (fun st' : SolverState => ∀ h ∈ st'.hashes, h < 2 ^ E.k) _
    (candPairs E.k) st (fun st' xz hxz hIH' => ?_) hIH
  simp only [stepCand]
  split
  case isTrue hc =>
    intro h hh
    dsimp only at hh
    rcases Finset.mem_union.mp hh with h1 | h2
    · exact hIH' h h1
    · rw [tmpHashSet, List.mem_toFinset, List.mem_map] at h2
      obtain ⟨p, hp, hpe⟩ := h2
      rw [← hpe]
      exact edgeHash_lt E.k _ _ _ _ _ hk (hkeys BB) (hkeys p) hy (mem_candPairs hxz).2.2.2
  case isFalse => exact hIH'

/-- All hashes the solver leaves behind stay below the bitmap capacity
when every key does. -/
theorem calcFmul_hashes_lt (E : Env) (hk : E.k ≤ 32)
    (hkeys : ∀ b, E.keys b < 2 ^ E.k) :
    ∀ h ∈ (calcFmul E).hashes, h < 2 ^ E.k := by
  rcases sweepFrom_cases E E.k 1 initState with hcase | ⟨y', hy1, _, hcase⟩
  · rw [calcFmul, hcase]
    intro h hh
    simp [initState] at hh
  · rw [calcFmul, hcase]
    exact round_hashes_lt E y' hk hkeys hy1

/-- The fallback step only adds to the occupied set. -/
theorem fhashStep_hashes_mono (M : ℕ) (ts : TableState) (cur pre : ℕ) :
    ts.hashes ⊆ (fhashStep M ts cur pre).hashes := by
  cases hf : firstFree M ts.hashes with
  | none => rw [fhashStep_none M ts cur pre hf]
  | some i =>
    rw [fhashStep_some M ts cur pre i hf]
    exact Finset.subset_insert i ts.hashes

/-- The single-predecessor step only adds to the occupied set. -/
theorem singleStep_hashes_mono (M : ℕ) (ts : TableState) (cur : ℕ) :
    ts.hashes ⊆ (singleStep M ts cur).hashes := by
  cases hf : firstFree M ts.hashes with
  | none => rw [singleStep_none M ts cur hf]
  | some i =>
    rw [singleStep_some M ts cur i hf]
    exact Finset.subset_insert i ts.hashes

/-- The fallback builder only adds to the occupied set. -/
theorem calcFhash_hashes_mono (E : Env) (S : SolverState) :
    S.hashes ⊆ (calcFhash E S).hashes := by
  unfold calcFhash
  refine foldl_preserve (fun ts : TableState => S.hashes ⊆ ts.hashes) _ S.unsolv _
    (fun ts BB _ h => ?_) (Finset.Subset.refl _)
  show S.hashes ⊆ ((E.preds BB).foldl _ ts).hashes
  refine foldl_preserve (fun ts' : TableState => S.hashes ⊆ ts'.hashes) _ (E.preds BB) ts
    (fun ts' p _ h' => h'.trans (fhashStep_hashes_mono _ _ _ _)) h

/-- The single-predecessor builder only adds to the occupied set. -/
theorem calcSingle_hashes_mono (E : Env) (ts : TableState) :
    ts.hashes ⊆ (calcSingle E ts).hashes := by
  unfold calcSingle
  exact foldl_preserve (fun ts' : TableState => ts.hashes ⊆ ts'.hashes) _ E.singleBBS _
    (fun ts' BB _ h => h.trans (singleStep_hashes_mono _ _ _)) (Finset.Subset.refl _)

/-- The fallback step keeps all occupied slots below M. -/
theorem fhashStep_hashes_lt (M : ℕ) (ts : TableState) (cur pre : ℕ)
    (h : ∀ a ∈ ts.hashes, a < M) : ∀ a ∈ (fhashStep M ts cur pre).hashes, a < M := by
  cases hf : firstFree M ts.hashes with
  | none => rw [fhashStep_none M ts cur pre hf]; exact h
  | some i =>
    obtain ⟨hi1, _, _⟩ := firstFree_spec M ts.hashes i hf
    rw [fhashStep_some M ts cur pre i hf]
    intro a ha
    dsimp only at ha
    rcases Finset.mem_insert.mp ha with h1 | h2
    · rw [h1]; exact hi1
    · exact h a h2

/-- The single-predecessor step keeps all occupied slots below M. -/
theorem singleStep_hashes_lt (M : ℕ) (ts : TableState) (cur : ℕ)
    (h : ∀ a ∈ ts.hashes, a < M) : ∀ a ∈ (singleStep M ts cur).hashes, a < M := by
  cases hf : firstFree M ts.hashes with
  | none => rw [singleStep_none M ts cur hf]; exact h
  | some i =>
    obtain ⟨hi1, _, _⟩ := firstFree_spec M ts.hashes i hf
    rw [singleStep_some M ts cur i hf]
    intro a ha
    dsimp only at ha
    rcases Finset.mem_insert.mp ha with h1 | h2
    · rw [h1]; exact hi1
    · exact h a h2

/-- The whole pipeline keeps all occupied slots below the capacity when
every key is below it. -/
theorem pipeline_hashes_lt (E : Env) (hk : E.k ≤ 32)
    (hkeys : ∀ b, E.keys b < 2 ^ E.k) :
    ∀ a ∈ (pipeline E).hashes, a < MAPSIZE E.k := by
  have h1 : ∀ a ∈ (calcFhash E (calcFmul E)).hashes, a < MAPSIZE E.k := by
    unfold calcFhash
    refine foldl_preserve (fun ts : TableState => ∀ a ∈ ts.hashes, a < MAPSIZE E.k) _
      (calcFmul E).unsolv _ (fun ts BB _ h => ?_) (calcFmul_hashes_lt E hk hkeys)
    show ∀ a ∈ ((E.preds BB).foldl _ ts).hashes, a < MAPSIZE E.k
    exact foldl_preserve (fun ts' : TableState => ∀ a ∈ ts'.hashes, a < MAPSIZE E.k) _
      (E.preds BB) ts (fun ts' p _ h' => fhashStep_hashes_lt _ _ _ _ h') h
  unfold pipeline calcSingle
  exact foldl_preserve (fun ts : TableState => ∀ a ∈ ts.hashes, a < MAPSIZE E.k) _
    E.singleBBS _ (fun ts BB _ h => singleStep_hashes_lt _ _ _ h) h1

/-- C9: across the fallback and single-predecessor phases the occupied
set only gains elements step by step, and, when every key is below the
bitmap capacity, every element it ever holds lies below MAP_SIZE, so its
cardinality never exceeds MAP_SIZE. -/
theorem occupancy_monotone_bounded (E : Env) (hk : E.k ≤ 32)
    (hkeys : ∀ b, E.keys b < 2 ^ E.k) :
    (∀ (ts : TableState) (cur pre : ℕ),
      ts.hashes ⊆ (fhashStep (MAPSIZE E.k) ts cur pre).hashes) ∧
    (∀ (ts : TableState) (cur : ℕ),
      ts.hashes ⊆ (singleStep (MAPSIZE E.k) ts cur).hashes) ∧
    (calcFmul E).hashes ⊆ (calcFhash E (calcFmul E)).hashes ∧
    (calcFhash E (calcFmul E)).hashes ⊆ (pipeline E).hashes ∧
    (∀ h ∈ (pipeline E).hashes, h < MAPSIZE E.k) ∧
    (pipeline E).hashes.card ≤ MAPSIZE E.k := by
  have hb := pipeline_hashes_lt E hk hkeys
  refine ⟨fun ts cur pre => fhashStep_hashes_mono _ ts cur pre,
    fun ts cur => singleStep_hashes_mono _ ts cur,
    calcFhash_hashes_mono E (calcFmul E),
    calcSingle_hashes_mono E (calcFhash E (calcFmul E)),
    hb, ?_⟩
  have hsub : (pipeline E).hashes ⊆ Finset.range (MAPSIZE E.k) :=
    fun a ha => Finset.mem_range.mpr (hb a ha)
  calc (pipeline E).hashes.card ≤ (Finset.range (MAPSIZE E.k)).card :=
        Finset.card_le_card hsub
  _ = MAPSIZE E.k := Finset.card_range _

/-- Witness for occupancy_monotone_bounded: the example input has all keys
below the capacity 8 and its final occupied set indeed has at most 8
elements. -/
theorem occupancy_monotone_bounded_witness :
    (exEnv.k ≤ 32 ∧ ∀ b, exEnv.keys b < 2 ^ exEnv.k) ∧
      (pipeline exEnv).hashes.card ≤ MAPSIZE exEnv.k :=
  ⟨⟨by decide,
      fun b => by
        show (if b = 2 then (4 : ℕ) else if b = 3 then 7 else 0) < 2 ^ (3 : ℕ)
        split <;> [norm_num; split <;> norm_num]⟩,
    (occupancy_monotone_bounded exEnv (by decide)
      (fun b => by
        show (if b = 2 then (4 : ℕ) else if b = 3 then 7 else 0) < 2 ^ (3 : ℕ)
        split <;> [norm_num; split <;> norm_num])).2.2.2.2.2⟩

/-- Every executed round's shift lies between the starting shift and
MAP_SIZE_POW2. -/
theorem traceFrom_mem (E : Env) :
    ∀ (fuel y : ℕ), ∀ y' ∈ traceFrom E fuel y, y ≤ y' ∧ y' < E.k := by
  intro fuel
  induction fuel with
  | zero => intro y y' h; simp [traceFrom] at h
  | succ f ih =>
    intro y y' h
    rw [traceFrom] at h
    by_cases hy : y < E.k
    · rw [if_pos hy] at h
      rcases List.mem_cons.mp h with h1 | h2
      · subst h1
        exact ⟨le_refl y', hy⟩
      · by_cases hb : breakCond (calcFmulRound E y)
        · rw [if_pos hb] at h2
          simp at h2
        · rw [if_neg hb] at h2
          have := ih (y + 1) y' h2
          omega
    · rw [if_neg hy] at h
      simp at h

/-- With enough fuel, the sweep proceeds from an executed round to the
next in-range shift exactly when the round's break condition fails. -/
theorem traceFrom_next (E : Env) :
    ∀ (fuel y : ℕ), E.k < fuel + y →
      ∀ y' ∈ traceFrom E fuel y, y' + 1 < E.k →
        ((y' + 1) ∈ traceFrom E fuel y ↔ ¬breakCond (calcFmulRound E y')) := by
  intro fuel
  induction fuel with
  | zero => intro y _ y' h; simp [traceFrom] at h
  | succ f ih =>
    intro y hfy y' h hk1
    rw [traceFrom] at h ⊢
    by_cases hy : y < E.k
    · rw [if_pos hy] at h ⊢
      rcases List.mem_cons.mp h with h1 | h2
      · subst h1
        constructor
        · intro hmem
          rcases List.mem_cons.mp hmem with hh1 | hh2
          · omega
          · by_cases hb : breakCond (calcFmulRound E y')
            · rw [if_pos hb] at hh2
              simp at hh2
            · exact hb
        · intro hb
          apply List.mem_cons_of_mem
          rw [if_neg hb]
          cases f with
          | zero => omega
          | succ f2 =>
            rw [traceFrom, if_pos hk1]
            exact List.mem_cons_self _ _
      · by_cases hb : breakCond (calcFmulRound E y)
        · rw [if_pos hb] at h2
          simp at h2
        · rw [if_neg hb] at h2 ⊢
          have hne : y' + 1 ≠ y := by
            have := (traceFrom_mem E f (y + 1) y' h2).1
            omega
          have hiff := ih (y + 1) (by omega) y' h2 hk1
          constructor
          · intro hmem
            rcases List.mem_cons.mp hmem with hh1 | hh2
            · exact absurd hh1 hne
            · exact hiff.mp hh2
          · intro hb'
            exact List.mem_cons_of_mem _ (hiff.mpr hb')
    · rw [if_neg hy] at h
      simp at h

/-- C8: the outer sweep only executes rounds with 1 ≤ y < MAP_SIZE_POW2,
hence halts at or before y = log2(MAP_SIZE); and from an executed round it
continues to the next in-range shift exactly when the end-of-round break
condition, that is fewer than 10 unsolved blocks or an unsolved ratio
below 0.001, fails. -/
theorem sweepTrace_bounds_and_break (E : Env) :
    (∀ y ∈ sweepTrace E, 1 ≤ y ∧ y < E.k) ∧
      ∀ y ∈ sweepTrace E, y + 1 < E.k →
        ((y + 1) ∈ sweepTrace E ↔ ¬breakCond (calcFmulRound E y)) := by
  constructor
  · intro y hy
    exact traceFrom_mem E E.k 1 y hy
  · intro y hy hk1
    exact traceFrom_next E E.k 1 (by omega) y hy hk1

/-- Witness for sweepTrace_bounds_and_break: on the example input round 1
runs, is in range, and the sweep stops there because the round breaks. -/
theorem sweepTrace_bounds_and_break_witness :
    (1 ∈ sweepTrace exEnv ∧ 1 ≤ 1 ∧ 1 < exEnv.k) ∧
      (1 + 1 < exEnv.k ∧
        ((1 + 1) ∈ sweepTrace exEnv ↔ ¬breakCond (calcFmulRound exEnv 1))) :=
  ⟨⟨by decide, (sweepTrace_bounds_and_break exEnv).1 1 (by decide)⟩,
    ⟨by decide, (sweepTrace_bounds_and_break exEnv).2 1 (by decide) (by decide)⟩⟩

/-- Counterexample to the claim that acceptance in a round happens exactly
once per block at the first qualifying pair: in round 1 of the example
input, the first pair (1, 1) qualifies, yet block 0 is pushed on solv
twice, its recorded HashParams are (1, 1, 2) rather than (1, 1, 1), and
the claimed set holds the hashes of both accepted candidates. -/
theorem calcFmul_first_accept_cex :
    ((calcFmulRound exEnv 1).solv = [0, 0] ∧
        (calcFmulRound exEnv 1).params 0 ≠ some (1, 1, 1)) ∧
      ((tmpHashSet exEnv 0 1 1 1).card = (exEnv.preds 0).length ∧
        disjoint (tmpHashSet exEnv 0 1 1 1) ∅ ∧
        (calcFmulRound exEnv 1).params 0 = some (1, 1, 2) ∧
        (calcFmulRound exEnv 1).hashes = {1, 2, 3, 4}) := by
  decide

/-- Folding the spec-side acceptance scan from a nonempty accumulator
only prepends that accumulator: the condition reads the claimed set, never
the accumulated pairs. -/
theorem acceptedStep_shift (E : Env) (y BB : ℕ) :
    ∀ (l : List (ℕ × ℕ)) (acc : List (ℕ × ℕ)) (H : Finset ℕ),
      l.foldl (acceptedStep E y BB) (acc, H) =
        (acc ++ (l.foldl (acceptedStep E y BB) ([], H)).1,
          (l.foldl (acceptedStep E y BB) ([], H)).2) := by
  intro l
  induction l with
  | nil => intro acc H; simp
  | cons xz l ih =>
    intro acc H
    simp only [List.foldl_cons]
    by_cases hc : (tmpHashSet E BB xz.1 y xz.2).card = (E.preds BB).length ∧
        disjoint (tmpHashSet E BB xz.1 y xz.2) H
    · have h1 : acceptedStep E y BB (acc, H) xz =
          (acc ++ [xz], H ∪ tmpHashSet E BB xz.1 y xz.2) := by
        simp only [acceptedStep]
        rw [if_pos hc]
      have h2 : acceptedStep E y BB ([], H) xz =
          ([xz], H ∪ tmpHashSet E BB xz.1 y xz.2) := by
        simp only [acceptedStep]
        rw [if_pos hc]
        simp
      rw [h1, h2, ih (acc ++ [xz]) (H ∪ tmpHashSet E BB xz.1 y xz.2),
        ih [xz] (H ∪ tmpHashSet E BB xz.1 y xz.2)]
      simp
    · have h1 : acceptedStep E y BB (acc, H) xz = (acc, H) := by
        simp only [acceptedStep]
        rw [if_neg hc]
      have h2 : acceptedStep E y BB ([], H) xz = ([], H) := by
        simp only [acceptedStep]
        rw [if_neg hc]
      rw [h1, h2, ih acc H]

/-- The candidate scan of stepCand agrees with the spec-side acceptance
scan: the claimed set evolves identically, solv gains one copy of the
block per accepted pair, the block's params entry ends at the last
accepted pair, and no other params entry moves. -/
theorem foldCand_accepted_spec (E : Env) (y BB : ℕ) :
    ∀ (l : List (ℕ × ℕ)) (st : SolverState),
      (l.foldl (stepCand E y BB) st).hashes =
          (l.foldl (acceptedStep E y BB) ([], st.hashes)).2 ∧
        (l.foldl (stepCand E y BB) st).solv =
          st.solv ++ (l.foldl (acceptedStep E y BB) ([], st.hashes)).1.map (fun _ => BB) ∧
        (l.foldl (stepCand E y BB) st).params BB =
          (match (l.foldl (acceptedStep E y BB) ([], st.hashes)).1.getLast? with
           | none => st.params BB
           | some xz => some (xz.1, y, xz.2)) ∧
        ∀ B, B ≠ BB → (l.foldl (stepCand E y BB) st).params B = st.params B := by
  intro l
  induction l with
  | nil =>
    intro st
    exact ⟨rfl, by simp, by simp, fun B _ => rfl⟩
  | cons xz l ih =>
    intro st
    simp only [List.foldl_cons]
    by_cases hc : (tmpHashSet E BB xz.1 y xz.2).card = (E.preds BB).length ∧
        disjoint (tmpHashSet E BB xz.1 y xz.2) st.hashes
    · have hstep : stepCand E y BB st xz =
          { st with solv := st.solv ++ [BB],
                    params := Function.update st.params BB (some (xz.1, y, xz.2)),
                    hashes := st.hashes ∪ tmpHashSet E BB xz.1 y xz.2 } := by
        simp only [stepCand]
        rw [if_pos hc]
      have haccStep : acceptedStep E y BB ([], st.hashes) xz =
          ([xz], st.hashes ∪ tmpHashSet E BB xz.1 y xz.2) := by
        simp only [acceptedStep]
        rw [if_pos hc]
        simp
      rw [hstep, haccStep,
        acceptedStep_shift E y BB l [xz] (st.hashes ∪ tmpHashSet E BB xz.1 y xz.2)]
      obtain ⟨ih1, ih2, ih3, ih4⟩ := ih
        { st with solv := st.solv ++ [BB],
                  params := Function.update st.params BB (some (xz.1, y, xz.2)),
                  hashes := st.hashes ∪ tmpHashSet E BB xz.1 y xz.2 }
      refine ⟨ih1, ?_, ?_, ?_⟩
      · rw [ih2]
        dsimp only
        simp [List.append_assoc]
      · rw [ih3]
        dsimp only
        cases hrest :
            (l.foldl (acceptedStep E y BB)
              ([], st.hashes ∪ tmpHashSet E BB xz.1 y xz.2)).1 with
        | nil => simp [Function.update_same]
        | cons r rs =>
          rw [List.singleton_append, List.getLast?_cons_cons]
          cases hlast : (r :: rs).getLast? with
          | none => simp at hlast
          | some w => rfl
      · intro B hB
        rw [ih4 B hB]
        dsimp only
        rw [Function.update_noteq hB]
    · have hstep : stepCand E y BB st xz = st := by
        simp only [stepCand]
        rw [if_neg hc]
      have haccStep : acceptedStep E y BB ([], st.hashes) xz = ([], st.hashes) := by
        simp only [acceptedStep]
        rw [if_neg hc]
      rw [hstep, haccStep]
      exact ih st

/-- C1 amended: in a round, a block's (x, z) scan accepts every qualifying
pair in ascending x then z, not only the first: each acceptance pushes the
block on solv once more and merges that candidate's hashes into the claimed
set, the recorded HashParams are the last accepted pair with the round's y,
no other block's params entry moves, and the block goes to unsolv
regardless. -/
theorem processBlock_accept_spec (E : Env) (y : ℕ) (st : SolverState) (BB : ℕ) :
    (processBlock E y st BB).hashes = (acceptedPairs E y BB st.hashes).2 ∧
      (processBlock E y st BB).solv =
        st.solv ++ (acceptedPairs E y BB st.hashes).1.map (fun _ => BB) ∧
      (processBlock E y st BB).unsolv = st.unsolv ++ [BB] ∧
      (processBlock E y st BB).params BB =
        (match (acceptedPairs E y BB st.hashes).1.getLast? with
         | none => st.params BB
         | some xz => some (xz.1, y, xz.2)) ∧
      ∀ B, B ≠ BB → (processBlock E y st BB).params B = st.params B := by
  obtain ⟨h1, h2, h3, h4⟩ := foldCand_accepted_spec E y BB (candPairs E.k) st
  exact ⟨h1, h2, processBlock_unsolv E y st BB, h3, h4⟩

/-- Witness for processBlock_accept_spec: processing block 0 of the
example leaves the params entry of the distinct block 5 untouched. -/
theorem processBlock_accept_spec_witness :
    (5 ≠ 0) ∧ (processBlock exEnv 1 initState 0).params 5 = initState.params 5 :=
  ⟨by decide, (processBlock_accept_spec exEnv 1 initState 0).2.2.2.2 5 (by decide)⟩

end AFLPass
